import Mathlib

/-!
Shallow embedding of the rCore kernel's memory and task subsystem
(frame allocator, SV39 page-table walk, translated_byte_buffer, the
batch-path sys_write, sys_get_time, and the round-robin task manager),
together with theorems settling the specification claims about them.

Machine integers (`usize` on RV64) are modelled as `Nat` with explicit
`% 2 ^ 64` at the operations where wrapping matters.
-/

namespace RCore

/-- Modulus of a 64-bit machine word (`usize` on RV64). -/
def U64 : Nat := 2 ^ 64

/-- config::PAGE_SIZE. -/
def PAGE_SIZE : Nat := 0x1000

/-- config::PAGE_SIZE_BITS. -/
def PAGE_SIZE_BITS : Nat := 0xc

/-- mm::address::PA_WIDTH_SV39. -/
def PA_WIDTH_SV39 : Nat := 56

/-- mm::address::VA_WIDTH_SV39. -/
def VA_WIDTH_SV39 : Nat := 39

/-- mm::address::PPN_WIDTH_SV39 = PA_WIDTH_SV39 - PAGE_SIZE_BITS = 44. -/
def PPN_WIDTH_SV39 : Nat := PA_WIDTH_SV39 - PAGE_SIZE_BITS

/-- mm::address::VPN_WIDTH_SV39 = VA_WIDTH_SV39 - PAGE_SIZE_BITS = 27. -/
def VPN_WIDTH_SV39 : Nat := VA_WIDTH_SV39 - PAGE_SIZE_BITS

/-- PhysAddr::floor: `self.0 / PAGE_SIZE`. The argument is the raw
address value stored in the PhysAddr wrapper. -/
def physAddrFloor (a : Nat) : Nat := a / PAGE_SIZE

/-- PhysAddr::ceil: `(self.0 - 1 + PAGE_SIZE) / PAGE_SIZE`, where the
usize subtraction and addition wrap modulo 2^64 (so the `- 1` is an
addition of 2^64 - 1 followed by reduction). -/
def physAddrCeil (a : Nat) : Nat := ((a + (U64 - 1) + PAGE_SIZE) % U64) / PAGE_SIZE

/-- VirtAddr::floor: `self.0 / PAGE_SIZE`. -/
def virtAddrFloor (a : Nat) : Nat := a / PAGE_SIZE

/-- VirtAddr::ceil: `(self.0 - 1 + PAGE_SIZE) / PAGE_SIZE` in wrapping
usize arithmetic, as in PhysAddr::ceil. -/
def virtAddrCeil (a : Nat) : Nat := ((a + (U64 - 1) + PAGE_SIZE) % U64) / PAGE_SIZE

/-- From\<usize\> for PhysPageNum: truncation to PPN_WIDTH_SV39 bits. -/
def toPPN (v : Nat) : Nat := v % 2 ^ PPN_WIDTH_SV39

/-! ## Frame allocator (mm::frame_allocator) -/

/-- StackFrameAllocator. The field `ends` models the source field `end`
(that name is reserved in Lean): the past-the-end bound of the
never-yet-issued physical page numbers. `recycled` models the
`Vec<usize>` in source order: `Vec::push` appends at the back and
`Vec::pop` removes from the back. -/
structure StackFrameAllocator where
  current : Nat
  ends : Nat
  recycled : List Nat
deriving DecidableEq, Repr

/-- StackFrameAllocator::alloc: pop a recycled frame if any, else issue
`current` and advance it, else fail. The `.into()` conversion of the
returned usize to PhysPageNum truncates to 44 bits. Returns the result
together with the updated allocator state. -/
def StackFrameAllocator.alloc (s : StackFrameAllocator) : Option Nat × StackFrameAllocator :=
  match s.recycled.getLast? with
  | some ppn => (some (toPPN ppn), { s with recycled := s.recycled.dropLast })
  | none =>
    if s.current = s.ends then
      (none, s)
    else
      (some (toPPN s.current), { s with current := s.current + 1 })

/-- StackFrameAllocator::dealloc: the validity check
`ppn >= self.current || self.recycled.iter().any(|v| *v == ppn)`
panics (modelled as `none`); otherwise the frame number is pushed onto
`recycled`. -/
def StackFrameAllocator.dealloc (s : StackFrameAllocator) (ppn : Nat) :
    Option StackFrameAllocator :=
  if s.current ≤ ppn ∨ ppn ∈ s.recycled then
    none
  else
    some { s with recycled := s.recycled ++ [ppn] }

/-- Physical memory viewed as bytes: frame number → byte offset → byte. -/
def ByteMem : Type := Nat → Nat → Nat

/-- FrameTracker::new: `ppn.get_bytes_array().fill(0)` zeroes all
PAGE_SIZE bytes of the frame before the tracker is returned. -/
def frameTrackerNew (ppn : Nat) (m : ByteMem) : ByteMem :=
  fun p i => if p = ppn ∧ i < PAGE_SIZE then 0 else m p i

/-- frame_alloc: `FRAME_ALLOCATOR.exclusive_access().alloc().map(FrameTracker::new)`.
Returns the allocated frame plus the byte memory after the zeroing done
by FrameTracker::new, together with the updated allocator state. -/
def frame_alloc (s : StackFrameAllocator) (m : ByteMem) :
    Option (Nat × ByteMem) × StackFrameAllocator :=
  match s.alloc with
  | (some ppn, s2) => (some (ppn, frameTrackerNew ppn m), s2)
  | (none, s2) => (none, s2)

/-! ## Theorems: C9, C5, C6, C10 -/

/-- C9: for every physical address below 2^56 and virtual address below
2^39 (the legal widths enforced by the From conversions), `floor` is
division by 4096 rounding down and `ceil` — computed as
`(a - 1 + PAGE_SIZE) / PAGE_SIZE` in wrapping 64-bit arithmetic — is
division by 4096 rounding up, i.e. `(a + 4095) / 4096`; in particular
ceil 0 = 0. -/
theorem c9_floor_ceil (pa va : Nat) (hpa : pa < 2 ^ PA_WIDTH_SV39)
    (hva : va < 2 ^ VA_WIDTH_SV39) :
    physAddrFloor pa = pa / 4096 ∧ physAddrCeil pa = (pa + 4095) / 4096 ∧
    virtAddrFloor va = va / 4096 ∧ virtAddrCeil va = (va + 4095) / 4096 := by
  simp only [physAddrFloor, physAddrCeil, virtAddrFloor, virtAddrCeil, PAGE_SIZE, U64,
    PA_WIDTH_SV39, VA_WIDTH_SV39] at *
  norm_num at *
  omega

/-- Witness for C9 at pa = va = 0: both ceils evaluate to 0. -/
theorem c9_floor_ceil_witness : physAddrCeil 0 = 0 ∧ virtAddrCeil 0 = 0 := by
  have h := c9_floor_ceil 0 0 (by norm_num) (by norm_num)
  exact ⟨h.2.1.trans (by norm_num), h.2.2.2.trans (by norm_num)⟩

/-- C5: alloc returns a member of the recycled set when that set is
non-empty; else, when `current < end`, it returns `current` and
advances it; else (with `current = end`, which together with
`current ≤ end` means no unissued frames remain) it returns none.
Every frame returned through frame_alloc has all PAGE_SIZE bytes
zeroed. The bound hypotheses record that all page numbers held by the
allocator fit in 44 bits, which the PhysPageNum From conversions
guarantee in the source. -/
theorem c5_alloc_spec (s : StackFrameAllocator) (m : ByteMem)
    (hcur : s.current < 2 ^ 44) (hrec : ∀ p ∈ s.recycled, p < 2 ^ 44) :
    (s.recycled ≠ [] → ∃ p ∈ s.recycled, s.alloc.1 = some p) ∧
    (s.recycled = [] → s.current < s.ends →
      s.alloc = (some s.current, { s with current := s.current + 1 })) ∧
    (s.recycled = [] → s.current = s.ends → s.alloc = (none, s)) ∧
    (∀ p m2 s2, frame_alloc s m = (some (p, m2), s2) → ∀ i < PAGE_SIZE, m2 p i = 0) := by
  refine ⟨?_, ?_, ?_, ?_⟩
  · intro hne
    have hp : s.recycled.getLast? = some (s.recycled.getLast hne) :=
      List.getLast?_eq_getLast_of_ne_nil hne
    have hmem : s.recycled.getLast hne ∈ s.recycled := List.getLast_mem hne
    refine ⟨s.recycled.getLast hne, hmem, ?_⟩
    have hplt : s.recycled.getLast hne < 2 ^ 44 := hrec _ hmem
    simp only [StackFrameAllocator.alloc, hp, toPPN, PPN_WIDTH_SV39, PA_WIDTH_SV39,
      PAGE_SIZE_BITS]
    norm_num
    omega
  · intro hemp hlt
    have hne : s.current ≠ s.ends := Nat.ne_of_lt hlt
    simp only [StackFrameAllocator.alloc, hemp, List.getLast?_nil, if_neg hne, toPPN,
      PPN_WIDTH_SV39, PA_WIDTH_SV39, PAGE_SIZE_BITS]
    norm_num
    omega
  · intro hemp heq
    simp [StackFrameAllocator.alloc, hemp, heq]
  · intro p m2 s2 h i hi
    unfold frame_alloc at h
    rcases halloc : s.alloc with ⟨o, s3⟩
    rw [halloc] at h
    cases o with
    | none => simp at h
    | some q =>
      simp only at h
      have hq : q = p ∧ frameTrackerNew q m = m2 ∧ s3 = s2 := by
        refine ⟨?_, ?_, ?_⟩ <;> cases h <;> rfl
      obtain ⟨rfl, rfl, rfl⟩ := hq
      simp [frameTrackerNew, hi]

/-- Witness for C5 at a concrete allocator with empty recycled list:
alloc issues frame 5 and advances current to 6, and the frame is
zeroed. -/
theorem c5_alloc_spec_witness :
    (⟨5, 10, []⟩ : StackFrameAllocator).alloc = (some 5, ⟨6, 10, []⟩) ∧
    (∀ p m2 s2,
      frame_alloc ⟨5, 10, []⟩ (fun _ _ => 7) = (some (p, m2), s2) → ∀ i < PAGE_SIZE, m2 p i = 0) := by
  have h := c5_alloc_spec ⟨5, 10, []⟩ (fun _ _ => 7) (by norm_num)
    (by intro p hp; simp at hp)
  exact ⟨h.2.1 rfl (by norm_num), h.2.2.2⟩

/-- alloc preserves the allocator invariant current ≤ end, so the
current = end case of c5_alloc_spec is exactly the "no unissued frames
remain" case in every state reachable from an init(l, r) with
l ≤ r. -/
theorem alloc_preserves_le (s : StackFrameAllocator) (h : s.current ≤ s.ends) :
    s.alloc.2.current ≤ s.alloc.2.ends := by
  unfold StackFrameAllocator.alloc
  rcases hl : s.recycled.getLast? with - | p <;> simp only [hl]
  · split <;> rename_i he
    · exact h
    · show s.current + 1 ≤ s.ends
      omega
  · exact h

/-- dealloc preserves the allocator invariant current ≤ end. -/
theorem dealloc_preserves_le (s s2 : StackFrameAllocator) (h : s.current ≤ s.ends)
    (hd : s.dealloc p = some s2) : s2.current ≤ s2.ends := by
  unfold StackFrameAllocator.dealloc at hd
  split at hd
  · cases hd
  · cases hd
    exact h

/-- C6: dealloc fails (panics) exactly when the frame number is at or
above `current` or already appears in the recycled set; on success it
appends the frame number to the recycled set and leaves `current` and
`end` unchanged. -/
theorem c6_dealloc_spec (s : StackFrameAllocator) (ppn : Nat) :
    (s.dealloc ppn = none ↔ s.current ≤ ppn ∨ ppn ∈ s.recycled) ∧
    (∀ s2, s.dealloc ppn = some s2 →
      s2.current = s.current ∧ s2.ends = s.ends ∧ s2.recycled = s.recycled ++ [ppn]) := by
  constructor
  · unfold StackFrameAllocator.dealloc
    split <;> simp_all
  · intro s2 h
    unfold StackFrameAllocator.dealloc at h
    split at h
    · cases h
    · cases h
      exact ⟨rfl, rfl, rfl⟩

/-- Witness for C6: deallocating frame 3 into allocator ⟨5, 10, []⟩
appends 3 to the recycled list and changes nothing else. -/
theorem c6_dealloc_spec_witness :
    (⟨5, 10, [3]⟩ : StackFrameAllocator).current = 5 ∧
    (⟨5, 10, [3]⟩ : StackFrameAllocator).ends = 10 ∧
    (⟨5, 10, [3]⟩ : StackFrameAllocator).recycled = [] ++ [3] :=
  (c6_dealloc_spec ⟨5, 10, []⟩ 3).2 ⟨5, 10, [3]⟩ (by decide)

/-- C10: the recycled set is a LIFO stack. If dealloc of frame p
succeeds and no other allocator operation intervenes, the next alloc
returns exactly p and restores the allocator to the state it had
before the dealloc. -/
theorem c10_lifo (s s2 : StackFrameAllocator) (p : Nat) (hp : p < 2 ^ 44)
    (h : s.dealloc p = some s2) : s2.alloc = (some p, s) := by
  unfold StackFrameAllocator.dealloc at h
  split at h
  · cases h
  · cases h
    simp only [StackFrameAllocator.alloc, List.getLast?_concat, List.dropLast_concat, toPPN,
      PPN_WIDTH_SV39, PA_WIDTH_SV39, PAGE_SIZE_BITS]
    norm_num
    omega

/-- Witness for C10: after deallocating 3 into ⟨5, 10, []⟩, alloc pops
3 and restores the original state. -/
theorem c10_lifo_witness :
    (⟨5, 10, [3]⟩ : StackFrameAllocator).alloc = (some 3, ⟨5, 10, []⟩) :=
  c10_lifo ⟨5, 10, []⟩ ⟨5, 10, [3]⟩ 3 (by norm_num) (by decide)

/-! ## SV39 page table (mm::page_table) -/

/-- Page-table memory: physical page number → entry index (0..511) →
raw PTE bits, modelling `PhysPageNum::get_pte_array` indexing. -/
def PTMem : Type := Nat → Nat → Nat

/-- PageTableEntry: a 64-bit word; bits [53:10] are the physical page
number, bits [7:0] the flags. -/
structure PageTableEntry where
  bits : Nat
deriving DecidableEq, Repr

/-- PageTableEntry::ppn: `self.bits >> 10 & ((1 << 44) - 1)`. -/
def PageTableEntry.ppn (pte : PageTableEntry) : Nat := pte.bits / 2 ^ 10 % 2 ^ 44

/-- PageTableEntry::is_valid: the V flag is bit 0 of the entry. -/
def PageTableEntry.is_valid (pte : PageTableEntry) : Bool := pte.bits % 2 = 1

/-- VirtPageNum::indexes: the three 9-bit indices [vpn2, vpn1, vpn0]. -/
def vpnIndexes (vpn : Nat) : Nat × Nat × Nat :=
  (vpn / 2 ^ 18 % 512, vpn / 2 ^ 9 % 512, vpn % 512)

/-- PageTable::find_pte with the three-iteration loop unrolled: descend
root → level-1 table → leaf table using [vpn2, vpn1, vpn0]; return none
on an invalid entry at either of the two branch levels; at the leaf
level (loop index i = 2) return the slot unconditionally. -/
def find_pte (m : PTMem) (root vpn : Nat) : Option PageTableEntry :=
  let pte2 : PageTableEntry := ⟨m root (vpn / 2 ^ 18 % 512)⟩
  if pte2.is_valid then
    let pte1 : PageTableEntry := ⟨m pte2.ppn (vpn / 2 ^ 9 % 512)⟩
    if pte1.is_valid then
      some ⟨m pte1.ppn (vpn % 512)⟩
    else none
  else none

/-- PageTable::translate: `self.find_pte(vpn).copied()`. -/
def translate (m : PTMem) (root vpn : Nat) : Option PageTableEntry :=
  find_pte m root vpn

/-- The level-2 (root) entry the walk for `vpn` reads. -/
def l2Entry (m : PTMem) (root vpn : Nat) : PageTableEntry := ⟨m root (vpn / 2 ^ 18 % 512)⟩

/-- The level-1 entry the walk for `vpn` reads, assuming the level-2
entry was a valid branch. -/
def l1Entry (m : PTMem) (root vpn : Nat) : PageTableEntry :=
  ⟨m (l2Entry m root vpn).ppn (vpn / 2 ^ 9 % 512)⟩

/-- The leaf slot the walk for `vpn` reaches, assuming both branch
entries were valid. -/
def leafSlot (m : PTMem) (root vpn : Nat) : PageTableEntry :=
  ⟨m (l1Entry m root vpn).ppn (vpn % 512)⟩

/-- Concrete page-table memory for the C2 counterexample: root frame 1
has a valid branch at index 0 to frame 2, frame 2 a valid branch at
index 0 to frame 3, and frame 3 holds only zero (invalid) leaf slots. -/
def c2Mem : PTMem := fun p i =>
  if p = 1 ∧ i = 0 then 2049
  else if p = 2 ∧ i = 0 then 3073
  else 0

/-- Counterexample to C2 as stated: with both branch levels valid but
the leaf slot empty, translate returns Some of an entry whose V bit is
clear — the vpn is not mapped, yet the result is not None. -/
theorem c2_counterexample :
    translate c2Mem 1 0 = some ⟨0⟩ ∧
    (⟨0⟩ : PageTableEntry).is_valid = false := by
  constructor
  · rfl
  · rfl

/-- The unrolled walk written in terms of the level-entry helpers;
holds by definitional unfolding of the let bindings in find_pte. -/
theorem find_pte_eq (m : PTMem) (root vpn : Nat) :
    find_pte m root vpn =
      if (l2Entry m root vpn).is_valid then
        if (l1Entry m root vpn).is_valid then some (leafSlot m root vpn) else none
      else none := rfl

/-- C2 amended: translate returns None exactly when the descent meets
an invalid entry at one of the two branch levels; otherwise it returns
Some copy of the leaf slot — which may itself have its V bit clear. -/
theorem c2_translate (m : PTMem) (root vpn : Nat) :
    (translate m root vpn = none ↔
      ¬((l2Entry m root vpn).is_valid = true ∧ (l1Entry m root vpn).is_valid = true)) ∧
    ((l2Entry m root vpn).is_valid = true → (l1Entry m root vpn).is_valid = true →
      translate m root vpn = some (leafSlot m root vpn)) := by
  unfold translate
  rw [find_pte_eq]
  by_cases h2 : (l2Entry m root vpn).is_valid = true
  · by_cases h1 : (l1Entry m root vpn).is_valid = true
    · simp [h2, h1]
    · simp [h2, h1]
  · simp [h2]

/-- Witness for C2 amended at the concrete counterexample memory: both
branches of vpn 0 are valid, so translate copies the leaf slot. -/
theorem c2_translate_witness : translate c2Mem 1 0 = some (leafSlot c2Mem 1 0) :=
  (c2_translate c2Mem 1 0).2 (by decide) (by decide)

/-! ## sys_write and checkmem (syscall::fs, batch) -/

/-- batch::USER_STACK_SIZE (the batch subsystem value, 4 KiB). -/
def USER_STACK_SIZE_BATCH : Nat := 4096

/-- batch::APP_BASE_ADDRESS. -/
def APP_BASE_ADDRESS : Nat := 0x80400000

/-- batch::APP_SIZE_LIMIT. -/
def APP_SIZE_LIMIT : Nat := 0x20000

/-- batch::checkmem(addr, len). `user_stack_sp` is the runtime value of
`USER_STACK.get_sp()` (the address one past the static user-stack
array); the code accepts the range iff it lies within the user stack
`[sp - USER_STACK_SIZE, sp]` or within the application window
`[APP_BASE_ADDRESS, APP_BASE_ADDRESS + APP_SIZE_LIMIT]`. The usize
subtraction `sp - USER_STACK_SIZE` and addition `addr + len` wrap
modulo 2^64 (release-build semantics), modelled by the explicit
reductions. -/
def checkmem (user_stack_sp addr len : Nat) : Bool :=
  if (user_stack_sp + (U64 - USER_STACK_SIZE_BATCH)) % U64 ≤ addr ∧
      (addr + len) % U64 ≤ user_stack_sp then
    true
  else if APP_BASE_ADDRESS ≤ addr ∧
      (addr + len) % U64 ≤ APP_BASE_ADDRESS + APP_SIZE_LIMIT then
    true
  else
    false

/-- syscall::fs::FD_STDOUT. -/
def FD_STDOUT : Nat := 1

/-- The batch path has no paging: the buffer bytes are read directly
from flat memory (address → byte), physical = virtual. -/
def FlatMem : Type := Nat → Nat

/-- The bytes `core::slice::from_raw_parts(buf, len)` exposes: the len
bytes at usize addresses buf, buf + 1, … (wrapping modulo 2^64). -/
def readBytes (mem : FlatMem) (buf len : Nat) : List Nat :=
  (List.range len).map (fun i => mem ((buf + i) % U64))

/-- A UTF-8 continuation byte, 0x80..=0xBF. -/
def contByte (b : Nat) : Bool := decide (0x80 ≤ b ∧ b ≤ 0xBF)

/-- The validation performed by `core::str::from_utf8` (RFC 3629
well-formed UTF-8): ASCII lead bytes stand alone; 0xC2–0xDF take one
continuation; 0xE0/0xE1–0xEC/0xED/0xEE–0xEF take two continuations
with the first restricted to 0xA0–0xBF after 0xE0 and 0x80–0x9F after
0xED; 0xF0/0xF1–0xF3/0xF4 take three continuations with the first
restricted to 0x90–0xBF after 0xF0 and 0x80–0x8F after 0xF4; every
other lead byte is invalid. -/
def isValidUtf8 : List Nat → Bool
  | [] => true
  | b0 :: rest =>
    if b0 ≤ 0x7F then
      isValidUtf8 rest
    else
      match rest with
      | [] => false
      | b1 :: rest1 =>
        if 0xC2 ≤ b0 ∧ b0 ≤ 0xDF then
          contByte b1 && isValidUtf8 rest1
        else
          match rest1 with
          | [] => false
          | b2 :: rest2 =>
            if b0 = 0xE0 then
              decide (0xA0 ≤ b1 ∧ b1 ≤ 0xBF) && contByte b2 && isValidUtf8 rest2
            else if 0xE1 ≤ b0 ∧ b0 ≤ 0xEC then
              contByte b1 && contByte b2 && isValidUtf8 rest2
            else if b0 = 0xED then
              decide (0x80 ≤ b1 ∧ b1 ≤ 0x9F) && contByte b2 && isValidUtf8 rest2
            else if 0xEE ≤ b0 ∧ b0 ≤ 0xEF then
              contByte b1 && contByte b2 && isValidUtf8 rest2
            else
              match rest2 with
              | [] => false
              | b3 :: rest3 =>
                if b0 = 0xF0 then
                  decide (0x90 ≤ b1 ∧ b1 ≤ 0xBF) && contByte b2 && contByte b3 &&
                    isValidUtf8 rest3
                else if 0xF1 ≤ b0 ∧ b0 ≤ 0xF3 then
                  contByte b1 && contByte b2 && contByte b3 && isValidUtf8 rest3
                else if b0 = 0xF4 then
                  decide (0x80 ≤ b1 ∧ b1 ≤ 0x8F) && contByte b2 && contByte b3 &&
                    isValidUtf8 rest3
                else false

/-- syscall::fs::sys_write: first rejects (returns -1) any buffer that
fails batch::checkmem; then matches on fd: FD_STDOUT reads the bytes
through the raw pointer (no page-table translation), runs
`core::str::from_utf8(slice).unwrap()` — which panics (modelled as
none) when the bytes are not valid UTF-8 — prints them and returns
len; any other fd returns -1. -/
def sys_write (mem : FlatMem) (user_stack_sp fd buf len : Nat) : Option Int :=
  if ¬ checkmem user_stack_sp buf len then
    some (-1)
  else if fd = FD_STDOUT then
    if isValidUtf8 (readBytes mem buf len) then
      some (len : Int)
    else
      none
  else
    some (-1)

/-- Counterexample to C1 as stated: with fd = 1 and buf = 0, len = 10
(page 0 is outside both checkmem windows; the repository's own
test1_write0 test asserts this call yields -1), sys_write returns -1,
not len; and with fd = 1 and an in-window buffer holding the non-UTF-8
byte 0xFF, the `from_utf8(...).unwrap()` step panics instead of
returning len. The user-stack pointer is the concrete kernel-static
address 0x80210000; the claim quantifies over all invocations. -/
theorem c1_counterexample :
    sys_write (fun _ => 0) 0x80210000 1 0 10 = some (-1) ∧
    some ((-1 : Int)) ≠ some ((10 : Nat) : Int) ∧
    checkmem 0x80210000 0x80400000 1 = true ∧
    sys_write (fun _ => 0xFF) 0x80210000 1 0x80400000 1 = none := by
  refine ⟨rfl, by decide, rfl, rfl⟩

/-- The Prop-level reading of checkmem's two acceptance windows, the
usize wrapping made explicit. -/
def checkmemOk (sp addr len : Nat) : Prop :=
  ((sp + (U64 - USER_STACK_SIZE_BATCH)) % U64 ≤ addr ∧ (addr + len) % U64 ≤ sp) ∨
  (APP_BASE_ADDRESS ≤ addr ∧ (addr + len) % U64 ≤ APP_BASE_ADDRESS + APP_SIZE_LIMIT)

/-- checkmem decides exactly the two-window condition. -/
theorem checkmem_iff (sp addr len : Nat) :
    checkmem sp addr len = true ↔ checkmemOk sp addr len := by
  unfold checkmem checkmemOk
  split <;> rename_i h1
  · simp only [true_iff]
    exact Or.inl h1
  · split <;> rename_i h2
    · simp only [true_iff]
      exact Or.inr h2
    · simp only [Bool.false_eq_true, false_iff]
      intro h
      rcases h with h | h
      · exact h1 h
      · exact h2 h

/-- C1 amended: sys_write returns len exactly when the buffer range
passes the checkmem bounds test (it lies within the user stack window
or the application window, in wrapping usize arithmetic), fd = 1, and
the buffer bytes — read directly through the raw pointer, with no
page-table translation — form valid UTF-8; it panics exactly when the
bounds test passes, fd = 1, and the bytes are not valid UTF-8 (the
`from_utf8(slice).unwrap()` step); and it returns -1 exactly when the
bounds test fails or fd is not 1. -/
theorem c1_sys_write (mem : FlatMem) (sp fd buf len : Nat) :
    (sys_write mem sp fd buf len = some (len : Int) ↔
      checkmemOk sp buf len ∧ fd = 1 ∧ isValidUtf8 (readBytes mem buf len) = true) ∧
    (sys_write mem sp fd buf len = none ↔
      checkmemOk sp buf len ∧ fd = 1 ∧ isValidUtf8 (readBytes mem buf len) = false) ∧
    (sys_write mem sp fd buf len = some (-1) ↔ ¬(checkmemOk sp buf len ∧ fd = 1)) := by
  unfold sys_write
  by_cases hc : checkmem sp buf len = true
  · have hok : checkmemOk sp buf len := (checkmem_iff sp buf len).mp hc
    rw [if_neg (by simp [hc])]
    by_cases hfd : fd = FD_STDOUT
    · have hfd1 : fd = 1 := hfd
      rw [if_pos hfd]
      by_cases hv : isValidUtf8 (readBytes mem buf len) = true
      · rw [if_pos hv]
        refine ⟨iff_of_true rfl ⟨hok, hfd1, hv⟩, ?_, ?_⟩
        · refine iff_of_false (fun h => Option.noConfusion h) (fun h => ?_)
          rw [h.2.2] at hv
          cases hv
        · refine iff_of_false (fun h => ?_) (fun h => h ⟨hok, hfd1⟩)
          injection h with h2
          omega
      · have hvf : isValidUtf8 (readBytes mem buf len) = false := by
          cases hvv : isValidUtf8 (readBytes mem buf len)
          · rfl
          · exact absurd hvv hv
        rw [if_neg hv]
        refine ⟨?_, iff_of_true rfl ⟨hok, hfd1, hvf⟩, ?_⟩
        · refine iff_of_false (fun h => Option.noConfusion h) (fun h => hv h.2.2)
        · exact iff_of_false (fun h => Option.noConfusion h) (fun h => h ⟨hok, hfd1⟩)
    · rw [if_neg hfd]
      refine ⟨?_, ?_, iff_of_true rfl (fun h => hfd h.2)⟩
      · refine iff_of_false (fun h => ?_) (fun h => hfd h.2.1)
        injection h with h2
        omega
      · exact iff_of_false (fun h => Option.noConfusion h) (fun h => hfd h.2.1)
  · have hnok : ¬ checkmemOk sp buf len := fun h => hc ((checkmem_iff sp buf len).mpr h)
    rw [if_pos (by simpa using hc)]
    refine ⟨?_, ?_, iff_of_true rfl (fun h => hnok h.1)⟩
    · refine iff_of_false (fun h => ?_) (fun h => hnok h.1)
      injection h with h2
      omega
    · exact iff_of_false (fun h => Option.noConfusion h) (fun h => hnok h.1)

/-- Witness for C1 amended: two in-window ASCII bytes at the app base
with fd = 1 make sys_write return 2. -/
theorem c1_sys_write_witness :
    sys_write (fun _ => 0x41) 0x80210000 1 0x80400000 2 = some ((2 : Nat) : Int) :=
  (c1_sys_write (fun _ => 0x41) 0x80210000 1 0x80400000 2).1.mpr
    ⟨Or.inr ⟨by decide, by decide⟩, rfl, by decide⟩

/-! ## sys_get_time (syscall::process) -/

/-- timer::MICRO_PER_SEC. -/
def MICRO_PER_SEC : Nat := 1000000

/-- The TimeVal struct written by sys_get_time. -/
structure TimeVal where
  sec : Nat
  usec : Nat
deriving DecidableEq, Repr

/-- syscall::process::sys_get_time: `ts.as_mut()` is Some exactly when
the raw pointer ts is non-null; in that case the current microsecond
count is split into seconds and microseconds and written directly
through the raw pointer (no page-table translation) and 0 is returned;
for a null pointer nothing is written and -1 is returned. `us` is the
value of timer::get_time_us(), an external hardware reading. The
result is (return value, value written if any). -/
def sys_get_time (ts us : Nat) : Int × Option TimeVal :=
  if ts ≠ 0 then
    (0, some ⟨us / MICRO_PER_SEC, us % MICRO_PER_SEC⟩)
  else
    (-1, none)

/-- The all-zero page-table memory: nothing is mapped anywhere. -/
def emptyPT : PTMem := fun _ _ => 0

/-- Counterexample to C4 as stated: address 4096 is not mapped in a
page table whose frames are all zero (the walk fails at the root), yet
sys_get_time with ts = 4096 returns 0, not -1 — the code only
null-checks the raw pointer and never consults the page table. -/
theorem c4_counterexample :
    translate emptyPT 1 (4096 / PAGE_SIZE) = none ∧
    (sys_get_time 4096 0).1 = 0 ∧ ((0 : Int) ≠ -1) := by
  refine ⟨rfl, rfl, by decide⟩

/-- C4 amended: sys_get_time returns -1 exactly when ts is the null
pointer, and then writes nothing; for non-null ts it writes
us / 10^6 seconds and us % 10^6 microseconds directly through the raw
pointer and returns 0. -/
theorem c4_get_time (ts us : Nat) :
    ((sys_get_time ts us).1 = -1 ↔ ts = 0) ∧
    (ts = 0 → (sys_get_time ts us).2 = none) ∧
    (ts ≠ 0 → (sys_get_time ts us).1 = 0 ∧
      (sys_get_time ts us).2 = some ⟨us / MICRO_PER_SEC, us % MICRO_PER_SEC⟩) := by
  unfold sys_get_time
  by_cases h : ts = 0 <;> simp [h]

/-- Witness for C4 amended at ts = 8, us = 2500000: the call returns 0
and writes 2 seconds, 500000 microseconds. -/
theorem c4_get_time_witness :
    (sys_get_time 8 2500000).1 = 0 ∧
    (sys_get_time 8 2500000).2 = some ⟨2500000 / MICRO_PER_SEC, 2500000 % MICRO_PER_SEC⟩ :=
  (c4_get_time 8 2500000).2.2 (by decide)

/-! ## Task manager (task::mod, task::task) -/

/-- TaskStatus: the three task states. -/
inductive TaskStatus where
  | Ready
  | Running
  | Exited
deriving DecidableEq, Repr

/-- TaskManager::find_next_task: scan
`current + 1 .. current + num_app + 1`, reduce each id modulo num_app,
and pick the first whose status is Ready. `tasks` is the status vector;
num_app equals its length. Out-of-range indexing cannot occur (every
scanned id is a residue modulo the length); getD supplies an arbitrary
default to make the lookup total. -/
def find_next_task (tasks : List TaskStatus) (current : Nat) : Option Nat :=
  let num_app := tasks.length
  ((List.range' (current + 1) num_app).map (fun id => id % num_app)).find?
    (fun id => tasks.getD id TaskStatus.Exited == TaskStatus.Ready)

/-- Round-robin scan helper: find? over the window [s, s + cnt) mapped
through the residue map returns id exactly when id is the residue of
the first hit in the window. -/
theorem findRR_some_iff (p : Nat → Bool) (n : Nat) :
    ∀ cnt s id, (((List.range' s cnt).map (fun x => x % n)).find? p = some id ↔
      ∃ k, k < cnt ∧ p ((s + k) % n) = true ∧
        (∀ j, j < k → p ((s + j) % n) = false) ∧ id = (s + k) % n)
  | 0, s, id => by
    simp only [List.range', List.map_nil, List.find?_nil]
    constructor
    · intro h; cases h
    · rintro ⟨k, hk, -⟩; omega
  | cnt + 1, s, id => by
    rw [List.range'_succ, List.map_cons]
    by_cases hp : p (s % n) = true
    · rw [List.find?_cons_of_pos _ hp]
      constructor
      · intro h
        cases h
        exact ⟨0, by omega, by simpa using hp, fun j hj => absurd hj (by omega), by simp⟩
      · rintro ⟨k, hk, hpk, hmin, rfl⟩
        cases k with
        | zero => simp
        | succ k =>
          have := hmin 0 (by omega)
          simp only [Nat.add_zero] at this
          rw [this] at hp
          cases hp
    · rw [List.find?_cons_of_neg _ hp]
      rw [findRR_some_iff p n cnt (s + 1) id]
      have hps : p (s % n) = false := by
        cases hpv : p (s % n)
        · rfl
        · exact absurd hpv hp
      constructor
      · rintro ⟨k, hk, hpk, hmin, rfl⟩
        have he : s + 1 + k = s + (k + 1) := by omega
        rw [he] at hpk
        refine ⟨k + 1, by omega, hpk, ?_, by rw [he]⟩
        intro j hj
        cases j with
        | zero => simpa using hps
        | succ j =>
          have he2 : s + (j + 1) = s + 1 + j := by omega
          rw [he2]
          exact hmin j (by omega)
      · rintro ⟨k, hk, hpk, hmin, rfl⟩
        cases k with
        | zero => simp only [Nat.add_zero] at hpk; rw [hpk] at hps; cases hps
        | succ k =>
          have he : s + (k + 1) = s + 1 + k := by omega
          rw [he] at hpk
          refine ⟨k, by omega, hpk, ?_, by rw [he]⟩
          intro j hj
          have he2 : s + 1 + j = s + (j + 1) := by omega
          rw [he2]
          exact hmin (j + 1) (by omega)

/-- C7: find_next_task returns some id exactly when id = (c + k) mod N
for the smallest k in 1..=N whose task is Ready, and none exactly when
no task is Ready. -/
theorem c7_find_next (tasks : List TaskStatus) (current : Nat) :
    (∀ id, find_next_task tasks current = some id ↔
      ∃ k, 1 ≤ k ∧ k ≤ tasks.length ∧ id = (current + k) % tasks.length ∧
        tasks.getD id TaskStatus.Exited = TaskStatus.Ready ∧
        ∀ j, 1 ≤ j → j < k →
          tasks.getD ((current + j) % tasks.length) TaskStatus.Exited ≠ TaskStatus.Ready) ∧
    (find_next_task tasks current = none ↔
      ∀ i, i < tasks.length → tasks.getD i TaskStatus.Exited ≠ TaskStatus.Ready) := by
  set N := tasks.length with hN
  set p : Nat → Bool := fun id => tasks.getD id TaskStatus.Exited == TaskStatus.Ready with hp
  have hptrue : ∀ x, p x = true ↔ tasks.getD x TaskStatus.Exited = TaskStatus.Ready := by
    intro x; rw [hp]; simp
  have hpfalse : ∀ x, p x = false ↔ tasks.getD x TaskStatus.Exited ≠ TaskStatus.Ready := by
    intro x; rw [hp]; simp
  constructor
  · intro id
    unfold find_next_task
    rw [findRR_some_iff p N N (current + 1) id]
    constructor
    · rintro ⟨k, hk, hpk, hmin, rfl⟩
      have he : current + 1 + k = current + (k + 1) := by omega
      rw [he] at hpk ⊢
      refine ⟨k + 1, by omega, by omega, rfl, (hptrue _).mp hpk, ?_⟩
      intro j hj1 hjk
      have he2 : current + j = current + 1 + (j - 1) := by omega
      rw [he2]
      exact (hpfalse _).mp (hmin (j - 1) (by omega))
    · rintro ⟨k, hk1, hkN, rfl, hready, hmin⟩
      have he : current + k = current + 1 + (k - 1) := by omega
      refine ⟨k - 1, by omega, ?_, ?_, by rw [he]⟩
      · rw [← he]; exact (hptrue _).mpr hready
      · intro j hj
        rw [show current + 1 + j = current + (j + 1) by omega]
        exact (hpfalse _).mpr (hmin (j + 1) (by omega) (by omega))
  · unfold find_next_task
    rw [List.find?_eq_none]
    rcases Nat.eq_zero_or_pos N with hN0 | hN0
    · constructor
      · intro _ i hi; omega
      · intro _ x hx
        rw [← hN] at hx
        rw [hN0] at hx
        simp [List.range'] at hx
    · constructor
      · intro h i hi
        have hr : (current + 1) % N < N := Nat.mod_lt _ hN0
        set r := (current + 1) % N with hrdef
        set k : Nat := if r ≤ i then i - r else N + i - r with hk
        have hkN : k < N := by rw [hk]; split <;> omega
        have hy : (current + 1 + k) % N = i := by
          rw [Nat.add_mod, Nat.mod_eq_of_lt hkN, ← hrdef]
          rw [hk]
          split <;> rename_i hcase
          · rw [show r + (i - r) = i by omega]
            exact Nat.mod_eq_of_lt hi
          · rw [show r + (N + i - r) = N + i by omega, Nat.add_mod_left]
            exact Nat.mod_eq_of_lt hi
        have hmem : (current + 1 + k) % N ∈
            (List.range' (current + 1) N).map (fun x => x % N) := by
          exact List.mem_map.mpr ⟨current + 1 + k, List.mem_range'_1.mpr ⟨by omega, by omega⟩, rfl⟩
        have := h _ hmem
        rw [hy] at this
        exact (hpfalse i).mp (by cases hpc : p i; rfl; exact absurd hpc this)
      · intro h x hx
        obtain ⟨y, _, rfl⟩ := List.mem_map.mp hx
        have hlt : y % N < N := Nat.mod_lt _ hN0
        have hfalse := (hpfalse (y % N)).mpr (h _ hlt)
        rw [Bool.not_eq_true]
        exact hfalse

/-- Witness for C7 at a concrete state: from current = 0 over
[Exited, Ready, Ready], the nearest Ready id is 1. -/
theorem c7_find_next_witness :
    find_next_task [TaskStatus.Exited, TaskStatus.Ready, TaskStatus.Ready] 0 = some 1 :=
  ((c7_find_next [TaskStatus.Exited, TaskStatus.Ready, TaskStatus.Ready] 0).1 1).mpr
    ⟨1, le_refl 1, by norm_num, rfl, rfl, fun j hj1 hj2 => absurd hj1 (by omega)⟩

/-- The task-manager state visible to the scheduler claims: the status
vector (TaskManagerInner::tasks) and the current index
(TaskManagerInner::current_task). -/
structure TMState where
  tasks : List TaskStatus
  current : Nat
deriving DecidableEq, Repr

/-- TaskManager::run_first_task: set tasks[0] to Running (the current
index starts at 0 and is not changed). -/
def run_first_task (s : TMState) : TMState :=
  { s with tasks := s.tasks.set 0 TaskStatus.Running }

/-- TaskManager::mark_current_suspended: set tasks[current] to Ready. -/
def mark_current_suspended (s : TMState) : TMState :=
  { s with tasks := s.tasks.set s.current TaskStatus.Ready }

/-- TaskManager::mark_current_exited: set tasks[current] to Exited. -/
def mark_current_exited (s : TMState) : TMState :=
  { s with tasks := s.tasks.set s.current TaskStatus.Exited }

/-- TaskManager::run_next_task: if find_next_task yields an id, mark it
Running and make it current (the previous task's status was already
set by the caller); otherwise the kernel announces completion and shuts
down, modelled as leaving the state unchanged. -/
def run_next_task (s : TMState) : TMState :=
  match find_next_task s.tasks s.current with
  | some next => { tasks := s.tasks.set next TaskStatus.Running, current := next }
  | none => s

/-- task::suspend_current_and_run_next. -/
def suspend_current_and_run_next (s : TMState) : TMState :=
  run_next_task (mark_current_suspended s)

/-- task::exit_current_and_run_next. -/
def exit_current_and_run_next (s : TMState) : TMState :=
  run_next_task (mark_current_exited s)

/-- The reachable set exactly as claim C8 words it: the initial
all-Ready state, then run_first_task, then any sequence of
mark_current_suspended, mark_current_exited and run_next_task steps. -/
inductive ReachableClaim : TMState → Prop where
  | init (n : Nat) (hn : 0 < n) :
      ReachableClaim (run_first_task ⟨List.replicate n TaskStatus.Ready, 0⟩)
  | suspend {s : TMState} : ReachableClaim s → ReachableClaim (mark_current_suspended s)
  | exited {s : TMState} : ReachableClaim s → ReachableClaim (mark_current_exited s)
  | next {s : TMState} : ReachableClaim s → ReachableClaim (run_next_task s)

/-- The reachable set generated by the operations the kernel actually
invokes: run_first_task, then any sequence of
suspend_current_and_run_next and exit_current_and_run_next (the only
public compositions through which run_next_task is ever called). -/
inductive ReachableKernel : TMState → Prop where
  | init (n : Nat) (hn : 0 < n) :
      ReachableKernel (run_first_task ⟨List.replicate n TaskStatus.Ready, 0⟩)
  | suspend {s : TMState} :
      ReachableKernel s → ReachableKernel (suspend_current_and_run_next s)
  | exited {s : TMState} :
      ReachableKernel s → ReachableKernel (exit_current_and_run_next s)

/-- Counterexample to C8 as stated: with two tasks, run_first_task
followed by a bare run_next_task step (a sequence the claim's generator
set allows) reaches a state in which both tasks are Running. -/
theorem c8_counterexample :
    ReachableClaim ⟨[TaskStatus.Running, TaskStatus.Running], 1⟩ ∧
    ([TaskStatus.Running, TaskStatus.Running].count TaskStatus.Running) = 2 := by
  constructor
  · have h := ReachableClaim.next (ReachableClaim.init 2 (by norm_num))
    have he : run_next_task (run_first_task ⟨List.replicate 2 TaskStatus.Ready, 0⟩) =
        ⟨[TaskStatus.Running, TaskStatus.Running], 1⟩ := by decide
    rwa [he] at h
  · decide

/-- If a state has no Running task at all, then after run_next_task
every Running task (there is at most the newly scheduled one) sits at
the current index. -/
theorem run_next_preserves (t : TMState)
    (hnone : ∀ j (hj : j < t.tasks.length), t.tasks.get ⟨j, hj⟩ ≠ TaskStatus.Running) :
    ∀ i (hi : i < (run_next_task t).tasks.length),
      (run_next_task t).tasks.get ⟨i, hi⟩ = TaskStatus.Running →
        i = (run_next_task t).current := by
  have h1 : ∀ next, find_next_task t.tasks t.current = some next →
      run_next_task t = ⟨t.tasks.set next TaskStatus.Running, next⟩ := by
    intro next hf
    unfold run_next_task
    rw [hf]
  have h2 : find_next_task t.tasks t.current = none → run_next_task t = t := by
    intro hf
    unfold run_next_task
    rw [hf]
  rcases hfind : find_next_task t.tasks t.current with - | next
  · rw [h2 hfind]
    intro i hi hrun
    exact absurd hrun (hnone i hi)
  · rw [h1 next hfind]
    intro i hi hrun
    show i = next
    by_contra hin
    have hi2 : i < (t.tasks.set next TaskStatus.Running).length := hi
    have hrun2 : (t.tasks.set next TaskStatus.Running).get ⟨i, hi2⟩ = TaskStatus.Running := hrun
    rw [List.get_eq_getElem, List.getElem_set_ne (fun h => hin h.symm)] at hrun2
    have hi3 : i < t.tasks.length := by simpa using hi2
    exact hnone i hi3 (by rw [List.get_eq_getElem]; exact hrun2) |>.elim

/-- Any Running task in a kernel-reachable state sits at the current
index; this is the inductive invariant behind C8. -/
theorem kernel_running_at_current {s : TMState} (h : ReachableKernel s) :
    ∀ i (hi : i < s.tasks.length), s.tasks.get ⟨i, hi⟩ = TaskStatus.Running →
      i = s.current := by
  induction h with
  | init n hn =>
    intro i hi hrun
    show i = 0
    by_contra hne
    have hi2 : i < ((List.replicate n TaskStatus.Ready).set 0 TaskStatus.Running).length := hi
    have hrun2 : ((List.replicate n TaskStatus.Ready).set 0 TaskStatus.Running).get ⟨i, hi2⟩ =
        TaskStatus.Running := hrun
    rw [List.get_eq_getElem, List.getElem_set_ne (fun h => hne h.symm),
      List.getElem_replicate] at hrun2
    cases hrun2
  | suspend hs ih =>
    rename_i s
    have hnone : ∀ j (hj : j < (mark_current_suspended s).tasks.length),
        (mark_current_suspended s).tasks.get ⟨j, hj⟩ ≠ TaskStatus.Running := by
      intro j hj hcon
      have hj2 : j < (s.tasks.set s.current TaskStatus.Ready).length := hj
      have hj3 : j < s.tasks.length := by simpa using hj2
      have hcon2 : (s.tasks.set s.current TaskStatus.Ready).get ⟨j, hj2⟩ =
          TaskStatus.Running := hcon
      rw [List.get_eq_getElem, List.getElem_set] at hcon2
      split at hcon2
      · cases hcon2
      · rename_i hne
        exact hne ((ih j hj3 (by rw [List.get_eq_getElem]; exact hcon2)).symm)
    exact run_next_preserves (mark_current_suspended s) hnone
  | exited hs ih =>
    rename_i s
    have hnone : ∀ j (hj : j < (mark_current_exited s).tasks.length),
        (mark_current_exited s).tasks.get ⟨j, hj⟩ ≠ TaskStatus.Running := by
      intro j hj hcon
      have hj2 : j < (s.tasks.set s.current TaskStatus.Exited).length := hj
      have hj3 : j < s.tasks.length := by simpa using hj2
      have hcon2 : (s.tasks.set s.current TaskStatus.Exited).get ⟨j, hj2⟩ =
          TaskStatus.Running := hcon
      rw [List.get_eq_getElem, List.getElem_set] at hcon2
      split at hcon2
      · cases hcon2
      · rename_i hne
        exact hne ((ih j hj3 (by rw [List.get_eq_getElem]; exact hcon2)).symm)
    exact run_next_preserves (mark_current_exited s) hnone

/-- C8 amended: in every state reachable from the all-Ready initial
state by run_first_task followed by any sequence of
suspend_current_and_run_next and exit_current_and_run_next (the kernel
always calls run_next_task through these compositions), at most one
task has status Running; each task's status is exactly one of Ready,
Running, Exited by construction of the TaskStatus type. -/
theorem c8_at_most_one_running {s : TMState} (h : ReachableKernel s) :
    ∀ i j (hi : i < s.tasks.length) (hj : j < s.tasks.length),
      s.tasks.get ⟨i, hi⟩ = TaskStatus.Running →
      s.tasks.get ⟨j, hj⟩ = TaskStatus.Running → i = j := by
  intro i j hi hj hri hrj
  rw [kernel_running_at_current h i hi hri, kernel_running_at_current h j hj hrj]

/-- Witness for C8 amended at the two-task state right after
run_first_task: the Running indices 0 and 0 coincide. -/
theorem c8_at_most_one_running_witness : (0 : Nat) = 0 :=
  c8_at_most_one_running (ReachableKernel.init 2 (by norm_num)) 0 0
    (by decide) (by decide) (by decide) (by decide)

/-! ## translated_byte_buffer (mm::page_table) -/

/-- One kernel-visible byte slice produced by translated_byte_buffer:
bytes [lo, hi) of physical frame ppn, i.e.
`ppn.get_bytes_array()[lo..hi]`; a slice extending to the end of its
frame has hi = PAGE_SIZE. -/
structure Chunk where
  ppn : Nat
  lo : Nat
  hi : Nat
deriving DecidableEq, Repr

/-- From VirtAddr to usize: values whose bit 38 is set are
sign-extended by OR-ing in all bits above bit 38. -/
def vaToUsize (v : Nat) : Nat :=
  if 2 ^ (VA_WIDTH_SV39 - 1) ≤ v then v ||| (U64 - 2 ^ VA_WIDTH_SV39) else v

/-- PageTable::from_token: the low 44 bits of the satp value form the
root frame number of the non-owning view. -/
def from_token (satp : Nat) : Nat := satp % 2 ^ 44

/-- PageTable::token: 8 << 60 | root_ppn. -/
def pt_token (root : Nat) : Nat := 8 * 2 ^ 60 ||| root

/-- The while-loop of translated_byte_buffer with explicit fuel; each
iteration handles one page. Within an iteration: VirtAddr::from
truncates start to 39 bits; the page's leaf entry is obtained through
translate and unwrapped (failure is a kernel panic, modelled as none);
the VirtPageNum increment wraps at 27 bits; end_va is the smaller of
the next page boundary and the 39-bit truncation of the end address;
the pushed slice runs from the start offset to the end offset (or the
page end when the end offset is 0, and an inverted slice range is a
panic); the new start is end_va converted back to usize, which
sign-extends from bit 38. Fuel exhaustion also yields none; the
wrapper's fuel covers every terminating run. -/
def tbbLoop (m : PTMem) (root : Nat) : Nat → Nat → Nat → Option (List Chunk)
  | 0, _, _ => none
  | fuel + 1, start, stop =>
    if start < stop then
      let start_va := start % 2 ^ VA_WIDTH_SV39
      let vpn := start_va / PAGE_SIZE
      match translate m root vpn with
      | none => none
      | some pte =>
        let end_va := min ((vpn + 1) % 2 ^ VPN_WIDTH_SV39 * PAGE_SIZE)
          (stop % 2 ^ VA_WIDTH_SV39)
        let chunk : Chunk :=
          if end_va % PAGE_SIZE = 0 then
            ⟨pte.ppn, start_va % PAGE_SIZE, PAGE_SIZE⟩
          else
            ⟨pte.ppn, start_va % PAGE_SIZE, end_va % PAGE_SIZE⟩
        if chunk.lo ≤ chunk.hi then
          (tbbLoop m root fuel (vaToUsize end_va) stop).map (fun rest => chunk :: rest)
        else none
    else some []

/-- mm::page_table::translated_byte_buffer(token, ptr, len): build the
from_token view and run the loop from ptr to ptr + len. Fuel len + 1
bounds the iteration count of every terminating run, since each
iteration advances start by at least one byte. -/
def translated_byte_buffer (m : PTMem) (token ptr len : Nat) : Option (List Chunk) :=
  tbbLoop m (from_token token) (len + 1) ptr (ptr + len)

/-- The physical frame number the walk yields for a vpn (0 if the walk
fails); used to state which frame each returned slice lives in. -/
def translatePpn (m : PTMem) (root vpn : Nat) : Nat :=
  ((translate m root vpn).map PageTableEntry.ppn).getD 0

/-- Concrete page table for the C3 theorems: root frame 1 maps virtual
pages 0 and 1 (through branch frames 2, 3, leaf frames 50, 51) and
virtual pages 2^26 and 2^26 + 1 (through branch frames 4, 5, leaf
frames 100, 101), all with V|R|W|X flags. -/
def c3Mem : PTMem := fun p i =>
  if p = 1 ∧ i = 0 then 2 * 2 ^ 10 + 1
  else if p = 1 ∧ i = 256 then 4 * 2 ^ 10 + 1
  else if p = 2 ∧ i = 0 then 3 * 2 ^ 10 + 1
  else if p = 4 ∧ i = 0 then 5 * 2 ^ 10 + 1
  else if p = 3 ∧ i = 0 then 50 * 2 ^ 10 + 15
  else if p = 3 ∧ i = 1 then 51 * 2 ^ 10 + 15
  else if p = 5 ∧ i = 0 then 100 * 2 ^ 10 + 15
  else if p = 5 ∧ i = 1 then 101 * 2 ^ 10 + 15
  else 0

/-- Counterexample to C3 as stated: both pages of the fully mapped
two-page range [2^38, 2^38 + 8192) translate to valid leaves, yet
translated_byte_buffer returns a single 4096-byte slice — converting
end_va = 2^38 + 4096 back to usize sign-extends it above 2^63, so the
loop exits after one page and the slice lengths sum to 4096, not
8192. -/
theorem c3_counterexample :
    translate c3Mem 1 (2 ^ 26) = some ⟨100 * 2 ^ 10 + 15⟩ ∧
    translate c3Mem 1 (2 ^ 26 + 1) = some ⟨101 * 2 ^ 10 + 15⟩ ∧
    (⟨100 * 2 ^ 10 + 15⟩ : PageTableEntry).is_valid = true ∧
    (⟨101 * 2 ^ 10 + 15⟩ : PageTableEntry).is_valid = true ∧
    translated_byte_buffer c3Mem (pt_token 1) (2 ^ 38) 8192 = some [⟨100, 0, 4096⟩] ∧
    (([⟨100, 0, 4096⟩] : List Chunk).map fun c => c.hi - c.lo).sum ≠ 8192 := by
  refine ⟨rfl, rfl, rfl, rfl, ?_, by decide⟩
  rfl

/-- With fuel available, the loop returns the empty slice list as soon
as start has reached stop. -/
theorem tbbLoop_done (m : PTMem) (root f start stop : Nat) (h : ¬ start < stop) :
    tbbLoop m root (f + 1) start stop = some [] := by
  simp [tbbLoop, h]

/-- Loop invariant for translated_byte_buffer on a range below 2^38
whose pages all translate: the loop succeeds and produces one slice
per page — the first starting at the start offset, the rest at 0, all
but the last ending at the page end, the byte counts summing to the
range length, and the i-th slice living in the frame of the i-th
page. -/
theorem tbbLoop_spec (m : PTMem) (root : Nat) :
    ∀ fuel start stop, start < stop → stop ≤ 2 ^ 38 → stop - start < fuel →
      (∀ k, start / PAGE_SIZE ≤ k → k ≤ (stop - 1) / PAGE_SIZE →
        (translate m root k).isSome = true) →
      ∃ chunks, tbbLoop m root fuel start stop = some chunks ∧
        (chunks.map fun c => c.hi - c.lo).sum = stop - start ∧
        (∀ c, chunks.head? = some c → c.lo = start % PAGE_SIZE) ∧
        (∀ c ∈ chunks.tail, c.lo = 0) ∧
        (∀ i (h : i < chunks.length), i + 1 < chunks.length →
          (chunks.get ⟨i, h⟩).hi = PAGE_SIZE) ∧
        chunks.map Chunk.ppn =
          (List.range chunks.length).map (fun i => translatePpn m root (start / PAGE_SIZE + i)) := by
  intro fuel
  induction fuel with
  | zero =>
    intro start stop h1 _ h3 _
    omega
  | succ f ih =>
    intro start stop hlt hstop hfuel hmap
    have h38 : (2 : Nat) ^ 38 = 274877906944 := by norm_num
    have h39 : (2 : Nat) ^ VA_WIDTH_SV39 = 549755813888 := by norm_num [VA_WIDTH_SV39]
    have h27 : (2 : Nat) ^ VPN_WIDTH_SV39 = 134217728 := by
      norm_num [VPN_WIDTH_SV39, VA_WIDTH_SV39, PAGE_SIZE_BITS]
    have hPS : PAGE_SIZE = 4096 := rfl
    have hsva : start % 2 ^ VA_WIDTH_SV39 = start := by rw [h39]; omega
    have hstva : stop % 2 ^ VA_WIDTH_SV39 = stop := by rw [h39]; omega
    have hmod27 : (start / PAGE_SIZE + 1) % 2 ^ VPN_WIDTH_SV39 = start / PAGE_SIZE + 1 := by
      rw [h27, hPS]; omega
    have htr := hmap (start / PAGE_SIZE) (le_refl _) (Nat.div_le_div_right (by omega))
    obtain ⟨pte, hpte⟩ := Option.isSome_iff_exists.mp htr
    have hppn0 : translatePpn m root (start / PAGE_SIZE) = pte.ppn := by
      simp [translatePpn, hpte]
    by_cases hcase : stop ≤ (start / PAGE_SIZE + 1) * PAGE_SIZE
    · -- last page of the range
      have hmin : min ((start / PAGE_SIZE + 1) * PAGE_SIZE) stop = stop :=
        min_eq_right hcase
      have hdone : tbbLoop m root f (vaToUsize stop) stop = some [] := by
        have hge : ¬ vaToUsize stop < stop := by
          unfold vaToUsize
          split <;> rename_i hsx
          · have h38x : (2 : Nat) ^ (VA_WIDTH_SV39 - 1) = 274877906944 := by
              norm_num [VA_WIDTH_SV39]
            rw [h38x] at hsx
            have hse : stop = 274877906944 := by omega
            rw [hse]
            decide
          · omega
        rcases f with - | f2
        · rw [hPS] at hcase; omega
        · exact tbbLoop_done m root f2 _ stop hge
      by_cases hz : stop % PAGE_SIZE = 0
      · refine ⟨[⟨pte.ppn, start % PAGE_SIZE, PAGE_SIZE⟩], ?_, ?_, ?_, ?_, ?_, ?_⟩
        · simp only [tbbLoop, if_pos hlt, hsva, hstva, hmod27, hpte, hmin]
          rw [if_pos hz,
            if_pos (show start % PAGE_SIZE ≤ PAGE_SIZE from by rw [hPS]; omega), hdone]
          rfl
        · simp only [List.map_cons, List.map_nil, List.sum_cons, List.sum_nil]
          rw [hPS] at *
          omega
        · intro c hc
          cases hc
          rfl
        · intro c hc
          cases hc
        · intro i h hcon
          simp at hcon
        · simp [List.range_succ, hppn0]
      · refine ⟨[⟨pte.ppn, start % PAGE_SIZE, stop % PAGE_SIZE⟩], ?_, ?_, ?_, ?_, ?_, ?_⟩
        · simp only [tbbLoop, if_pos hlt, hsva, hstva, hmod27, hpte, hmin]
          rw [if_neg hz,
            if_pos (show start % PAGE_SIZE ≤ stop % PAGE_SIZE from by rw [hPS] at *; omega),
            hdone]
          rfl
        · simp only [List.map_cons, List.map_nil, List.sum_cons, List.sum_nil]
          rw [hPS] at *
          omega
        · intro c hc
          cases hc
          rfl
        · intro c hc
          cases hc
        · intro i h hcon
          simp at hcon
        · simp [List.range_succ, hppn0]
    · -- the range continues past this page
      push_neg at hcase
      set nstart := (start / PAGE_SIZE + 1) * PAGE_SIZE with hnstart
      have hmin : min ((start / PAGE_SIZE + 1) * PAGE_SIZE) stop = nstart :=
        min_eq_left (le_of_lt hcase)
      have hnz : nstart % PAGE_SIZE = 0 := by
        rw [hnstart, Nat.mul_mod_left]
      have hnva : vaToUsize nstart = nstart := by
        unfold vaToUsize
        rw [if_neg]
        rw [h39, h38] at *
        norm_num [VA_WIDTH_SV39]
        omega
      have hrec := ih nstart stop hcase hstop (by rw [hnstart, hPS] at *; omega)
        (fun k hk1 hk2 => hmap k (by rw [hnstart, hPS] at *; omega) hk2)
      obtain ⟨chunks2, hc2, hsum2, hhead2, htail2, hlast2, hppn2⟩ := hrec
      refine ⟨⟨pte.ppn, start % PAGE_SIZE, PAGE_SIZE⟩ :: chunks2, ?_, ?_, ?_, ?_, ?_, ?_⟩
      · simp only [tbbLoop, if_pos hlt, hsva, hstva, hmod27, hpte, hmin]
        rw [if_pos hnz,
          if_pos (show start % PAGE_SIZE ≤ PAGE_SIZE from by rw [hPS]; omega), hnva, hc2]
        rfl
      · simp only [List.map_cons, List.sum_cons]
        rw [hsum2]
        rw [hPS] at *
        omega
      · intro c hc
        cases hc
        rfl
      · intro c hc
        simp only [List.tail_cons] at hc
        rcases chunks2 with - | ⟨c2, cs2⟩
        · cases hc
        · rcases List.mem_cons.mp hc with rfl | hc3
          · have := hhead2 c rfl
            rw [this, hnz]
          · exact htail2 c (by simpa using hc3)
      · intro i h hcon
        cases i with
        | zero => rfl
        | succ i2 =>
          simp only [List.length_cons] at h hcon
          have h2 : i2 < chunks2.length := by omega
          have := hlast2 i2 h2 (by omega)
          simpa using this
      · simp only [List.map_cons, List.length_cons]
        rw [hppn2]
        rw [List.range_succ_eq_map, List.map_cons, List.map_map]
        rw [Nat.add_zero, hppn0]
        refine congrArg (fun l => pte.ppn :: l) ?_
        refine List.map_congr_left ?_
        intro a _
        simp only [Function.comp_apply]
        have he : nstart / PAGE_SIZE = start / PAGE_SIZE + 1 := by
          rw [hnstart, hPS]
          omega
        rw [he]
        refine congrArg (translatePpn m root) ?_
        omega

/-- C3 amended: for a range [v, v + len) lying below 2^38 (user ranges
in the low half of the SV39 space; for higher ranges the usize
sign-extension of end_va terminates the loop early, see the
counterexample) whose touched pages all translate,
translated_byte_buffer returns slices whose lengths sum to len, whose
first slice starts at offset v mod PAGE_SIZE, whose later slices start
at offset 0, of which only the last may end before the page end, and
whose i-th slice lives in the frame of the i-th page of the range. -/
theorem c3_translated_byte_buffer (m : PTMem) (token v len : Nat)
    (hbound : v + len ≤ 2 ^ 38)
    (hmapped : ∀ k, v / PAGE_SIZE ≤ k → k ≤ (v + len - 1) / PAGE_SIZE →
      (translate m (from_token token) k).isSome = true) :
    ∃ chunks, translated_byte_buffer m token v len = some chunks ∧
      (chunks.map fun c => c.hi - c.lo).sum = len ∧
      (∀ c, chunks.head? = some c → c.lo = v % PAGE_SIZE) ∧
      (∀ c ∈ chunks.tail, c.lo = 0) ∧
      (∀ i (h : i < chunks.length), i + 1 < chunks.length →
        (chunks.get ⟨i, h⟩).hi = PAGE_SIZE) ∧
      chunks.map Chunk.ppn =
        (List.range chunks.length).map
          (fun i => translatePpn m (from_token token) (v / PAGE_SIZE + i)) := by
  rcases Nat.eq_zero_or_pos len with hl0 | hl0
  · subst hl0
    refine ⟨[], ?_, rfl, ?_, ?_, ?_, rfl⟩
    · unfold translated_byte_buffer
      exact tbbLoop_done m (from_token token) 0 v (v + 0) (by omega)
    · intro c hc
      simp at hc
    · intro c hc
      simp at hc
    · intro i h hcon
      simp at h
  · have h := tbbLoop_spec m (from_token token) (len + 1) v (v + len) (by omega) hbound
      (by omega) hmapped
    obtain ⟨chunks, h1, h2, h3, h4, h5, h6⟩ := h
    refine ⟨chunks, h1, ?_, h3, h4, h5, h6⟩
    omega

/-- Witness for C3 amended: the two-page range [100, 5100) over the
concrete table c3Mem (pages 0 and 1 mapped to frames 50 and 51). -/
theorem c3_translated_byte_buffer_witness :
    ∃ chunks, translated_byte_buffer c3Mem (pt_token 1) 100 5000 = some chunks ∧
      (chunks.map fun c => c.hi - c.lo).sum = 5000 ∧
      (∀ c, chunks.head? = some c → c.lo = 100 % PAGE_SIZE) ∧
      (∀ c ∈ chunks.tail, c.lo = 0) ∧
      (∀ i (h : i < chunks.length), i + 1 < chunks.length →
        (chunks.get ⟨i, h⟩).hi = PAGE_SIZE) ∧
      chunks.map Chunk.ppn =
        (List.range chunks.length).map
          (fun i => translatePpn c3Mem (from_token (pt_token 1)) (100 / PAGE_SIZE + i)) :=
  c3_translated_byte_buffer c3Mem (pt_token 1) 100 5000 (by norm_num)
    (by
      intro k hk1 hk2
      have hPS : PAGE_SIZE = 4096 := rfl
      rw [hPS] at hk2
      have hk : k = 0 ∨ k = 1 := by omega
      rcases hk with rfl | rfl
      · rfl
      · rfl)

end RCore
